import Mathlib

/-!
Verification of the semi-circular coronal-loop coordinate generator in
`examples/saving_and_loading_data/coordinates_in_asdf.py` and of its
asdf serialization round-trip.

Conventions of the embedding:
* every length is expressed in centimetres, matching the script, which
  converts each quantity with `.to(u.cm)` before computing;
* every angle is expressed in radians except the observer latitude
  `theta0`, which the script keeps in degrees and only forwards to the
  frame constructor;
* the real-valued formulas (`arccos`, `sqrt`, the quadratic) are embedded
  over `ℝ`; `Real.sqrt` of a negative discriminant yields the junk value
  `0`, which — like numpy's `NaN` — can never pass the strict filter
  `r > r_1`, so the retained point set is unaffected;
* `scipy.optimize.bisect`, the astropy/sunpy frame transformation and the
  asdf reader/writer are external dependencies, not code of this
  repository; each is modelled from the spec where a claim needs it.
-/

namespace CoordsInAsdf

noncomputable section

open Real
open scoped Classical

/-- the solar radius `r_1 = const.R_sun`, converted to centimetres as the
script does with `r_1.to(u.cm).value` (`const.R_sun = 6.957e8 m`). -/
def R_sun_cm : ℝ := 6.957e10

/-- the bracketing function of the root search for `r_2`:
`np.arccos(0.5 * x / r_1.to(u.cm).value) - np.pi + length.to(u.cm).value / 2. / x`. -/
def r_2_func (length x : ℝ) : ℝ :=
  Real.arccos (0.5 * x / R_sun_cm) - Real.pi + length / 2 / x

/-- lower end of the bisection bracket, `length.to(u.cm).value / (2 * np.pi)`. -/
def bracketLo (length : ℝ) : ℝ := length / (2 * Real.pi)

/-- upper end of the bisection bracket, `length.to(u.cm).value / np.pi`. -/
def bracketHi (length : ℝ) : ℝ := length / Real.pi

/-- Modelled from the spec: `scipy.optimize.bisect` is an external
dependency (not code of this repository); the spec describes it as a
"bisection-style numeric root-finder".  `bisectAux f n lo hi` performs `n`
halving steps, keeping the half-interval on which the function changes
sign. -/
def bisectAux (f : ℝ → ℝ) : ℕ → ℝ → ℝ → ℝ × ℝ
  | 0, lo, hi => (lo, hi)
  | n + 1, lo, hi =>
    if f lo * f ((lo + hi) / 2) ≤ 0 then bisectAux f n lo ((lo + hi) / 2)
    else bisectAux f n ((lo + hi) / 2) hi

/-- the value returned by the bisection root-finder after `n` halving
steps: the midpoint of the final bracketing interval. -/
def bisect (f : ℝ → ℝ) (lo hi : ℝ) (n : ℕ) : ℝ :=
  ((bisectAux f n lo hi).1 + (bisectAux f n lo hi).2) / 2

/-- Modelled from the spec: the root-finder "fails with a
numerical-convergence error" when the bracket does not contain a sign
change; `none` models that error, `some` a normally returned root
approximation. -/
def bisectChecked (f : ℝ → ℝ) (lo hi : ℝ) (n : ℕ) : Option ℝ :=
  if 0 < f lo * f hi then none else some (bisect f lo hi n)

/-- the half-angle excluded from the full circle:
`alpha = np.arccos(0.5 * (r_2 / r_1).decompose())`. -/
def alpha (r2 : ℝ) : ℝ := Real.arccos (0.5 * (r2 / R_sun_cm))

/-- entry `i` of `phi = np.linspace(-np.pi + alpha, np.pi - alpha, 2000)`:
numpy's linspace yields `start + i * (stop - start) / (num - 1)`. -/
def phiSample (r2 : ℝ) (i : ℕ) : ℝ :=
  (-Real.pi + alpha r2) +
    (i : ℝ) * ((Real.pi - alpha r2) - (-Real.pi + alpha r2)) / 1999

/-- the quadratic coefficient `a = 1.`. -/
def qa : ℝ := 1

/-- the quadratic coefficient `b = -2 * (r_1.to(u.cm) * np.cos(phi))`. -/
def qb (phi : ℝ) : ℝ := -2 * (R_sun_cm * Real.cos phi)

/-- the quadratic coefficient `c = r_1.to(u.cm)**2 - r_2.to(u.cm)**2`. -/
def qc (r2 : ℝ) : ℝ := R_sun_cm ^ 2 - r2 ^ 2

/-- the discriminant `b**2 - 4 * a * c` of the quadratic for `r`. -/
def disc (r2 phi : ℝ) : ℝ := qb phi ^ 2 - 4 * qa * qc r2

/-- the radial distance `r = (-b + np.sqrt(b**2 - 4 * a * c)) / 2 / a`. -/
def rQuad (r2 phi : ℝ) : ℝ := (-qb phi + Real.sqrt (disc r2 phi)) / 2 / qa

/-- sample `i` survives the filter `i_r = np.where(r > r_1)` exactly when
its radial distance exceeds the surface radius. -/
def kept (r2 : ℝ) (i : ℕ) : Prop := R_sun_cm < rQuad r2 (phiSample r2 i)

/-- the set of sample indices retained by `np.where(r > r_1)`. -/
def keptSet (r2 : ℝ) : Finset ℕ := (Finset.range 2000).filter (kept r2)

/-- the retained sample indices in their original (ascending) order, as
numpy's boolean indexing preserves order. -/
def keptList (r2 : ℝ) : List ℕ := (keptSet r2).sort (· ≤ ·)

/-- a 3-D Cartesian point, components in centimetres. -/
structure Point3 where
  x : ℝ
  y : ℝ
  z : ℝ

/-- the Cartesian point built from sample `i`:
`x = r * sin(phi)`, `y = 0` (the script fills `y` with
`u.Quantity(r.shape[0] * [0 * u.cm])`), `z = r * cos(phi)`. -/
def loopPoint (r2 : ℝ) (i : ℕ) : Point3 :=
  { x := rQuad r2 (phiSample r2 i) * Real.sin (phiSample r2 i)
    y := 0
    z := rQuad r2 (phiSample r2 i) * Real.cos (phiSample r2 i) }

/-- the ordered sequence of retained Cartesian points. -/
def loopPointSet (r2 : ℝ) : List Point3 := (keptList r2).map (loopPoint r2)

/-- the distance of a Cartesian point from the body centre. -/
def ptRadius (p : Point3) : ℝ := Real.sqrt (p.x ^ 2 + p.y ^ 2 + p.z ^ 2)

/-- the Heliocentric frame metadata: the script constructs
`frames.Heliocentric(observer=SkyCoord(lon=0*u.deg, lat=theta0, radius=r_1,
frame='heliographic_stonyhurst'))`.  Longitude and latitude in degrees,
radius in centimetres. -/
structure HeliocentricFrame where
  observer_lon : ℝ
  observer_lat : ℝ
  observer_radius : ℝ

/-- the frame `hcc_frame` built by the script: observer at longitude `0`,
latitude `theta0`, radius `r_1`. -/
def hcc_frame (theta0 : ℝ) : HeliocentricFrame :=
  { observer_lon := 0, observer_lat := theta0, observer_radius := R_sun_cm }

/-- a coordinate object in a named target frame, keeping the source frame
metadata and the (position-preserving) point list. -/
structure HGSCoords where
  frameName : String
  sourceFrame : HeliocentricFrame
  points : List Point3

/-- Modelled from the spec: the external astropy/sunpy transformation
`SkyCoord(...).transform_to('heliographic_stonyhurst')` is not code of
this repository; the spec says the point set is "re-expressed in the
body's native spherical reference frame", so the model tags the point set
with the target frame name while preserving the points. -/
def transform_to_hgs (fr : HeliocentricFrame) (pts : List Point3) : HGSCoords :=
  { frameName := "heliographic_stonyhurst", sourceFrame := fr, points := pts }

/-- the full generator `semi_circular_loop(length, theta0)`: find `r_2`
by bisection on the bracket, then build and transform the retained point
set.  `none` models the root-finder raising. -/
def semi_circular_loop (length theta0 : ℝ) : Option HGSCoords :=
  (bisectChecked (r_2_func length) (bracketLo length) (bracketHi length) 100).map
    (fun r2 => transform_to_hgs (hcc_frame theta0) (loopPointSet r2))

/-- Modelled from the spec: the asdf tree `{'loop_points': loop_coords.frame}`,
"a mapping from string keys to values (here, one key mapping to a
CoordinateFrame)". -/
structure Tree where
  loop_points : HGSCoords

/-- Modelled from the spec: the file produced by `asdf_file.write_to(...)`.
The asdf library is an external dependency; the spec requires the tree to
be "written verbatim to persistent storage and reconstructible byte-for-byte
into an equivalent CoordinateFrame", so the model stores the tree itself. -/
structure StoredAsdf where
  storedTree : Tree

/-- Modelled from the spec: writing the tree to `loop_coords.asdf`. -/
def write_to (t : Tree) : StoredAsdf := { storedTree := t }

/-- Modelled from the spec: `asdf.open` returning the stored tree. -/
def asdf_open (f : StoredAsdf) : Tree := f.storedTree

/-- concrete root instance used by witnesses: the circle radius
`r2 = 2 * r_1 * cos(5π/12)`, for which the loop length
`Lstar = 2 * r2star * (7π/12)` makes `r2star` an exact root of
`r_2_func Lstar`. -/
def r2star : ℝ := 2 * R_sun_cm * ((Real.sqrt 6 - Real.sqrt 2) / 4)

/-- concrete loop length (in cm) paired with `r2star`; numerically about
1320 Mm, inside the physical range of the claims. -/
def Lstar : ℝ := 2 * r2star * (7 * Real.pi / 12)

/-! Helper lemmas about the geometry. -/

lemma R_sun_pos : (0 : ℝ) < R_sun_cm := by norm_num [R_sun_cm]

lemma rQuad_eq (r2 phi : ℝ) :
    rQuad r2 phi = R_sun_cm * Real.cos phi + Real.sqrt (disc r2 phi) / 2 := by
  unfold rQuad qb qa
  ring

lemma disc_eq (r2 phi : ℝ) :
    disc r2 phi = 4 * (r2 ^ 2 - R_sun_cm ^ 2 * Real.sin phi ^ 2) := by
  have h := Real.sin_sq_add_cos_sq phi
  unfold disc qb qa qc
  nlinarith [h]

lemma rQuad_le_of_disc_nonpos {r2 phi : ℝ} (h : disc r2 phi ≤ 0) :
    rQuad r2 phi ≤ R_sun_cm := by
  rw [rQuad_eq, Real.sqrt_eq_zero'.2 h]
  have hc : Real.cos phi ≤ 1 := Real.cos_le_one phi
  nlinarith [R_sun_pos]

lemma rQuad_gt {r2 phi : ℝ} (h : R_sun_cm * |phi| < r2) :
    R_sun_cm < rQuad r2 phi := by
  have hR : (0 : ℝ) < R_sun_cm := R_sun_pos
  have habs : (0 : ℝ) ≤ R_sun_cm * |phi| := by positivity
  have hr2 : 0 < r2 := lt_of_le_of_lt habs h
  have hcos : Real.cos phi ≤ 1 := Real.cos_le_one phi
  have hquad : 1 - phi ^ 2 / 2 ≤ Real.cos phi := Real.one_sub_sq_div_two_le_cos
  have hsq : (R_sun_cm * |phi|) ^ 2 < r2 ^ 2 := by nlinarith [habs, h]
  have hsq' : R_sun_cm ^ 2 * phi ^ 2 < r2 ^ 2 := by
    have habs2 : (R_sun_cm * |phi|) ^ 2 = R_sun_cm ^ 2 * phi ^ 2 := by
      rw [mul_pow, sq_abs]
    linarith [habs2 ▸ hsq]
  have hkey : R_sun_cm ^ 2 * (2 - 2 * Real.cos phi) < r2 ^ 2 := by
    nlinarith [sq_nonneg R_sun_cm]
  have hA : (R_sun_cm * (1 - Real.cos phi)) ^ 2 <
      r2 ^ 2 - R_sun_cm ^ 2 * Real.sin phi ^ 2 := by
    have hpyth := Real.sin_sq_add_cos_sq phi
    nlinarith [hpyth]
  have hnn : (0 : ℝ) ≤ R_sun_cm * (1 - Real.cos phi) := by nlinarith
  have hsqrt : R_sun_cm * (1 - Real.cos phi) <
      Real.sqrt (r2 ^ 2 - R_sun_cm ^ 2 * Real.sin phi ^ 2) :=
    (Real.lt_sqrt hnn).2 hA
  have hfour : Real.sqrt (disc r2 phi) =
      2 * Real.sqrt (r2 ^ 2 - R_sun_cm ^ 2 * Real.sin phi ^ 2) := by
    rw [disc_eq]
    rw [show (4 : ℝ) * (r2 ^ 2 - R_sun_cm ^ 2 * Real.sin phi ^ 2) =
        2 ^ 2 * (r2 ^ 2 - R_sun_cm ^ 2 * Real.sin phi ^ 2) by ring]
    rw [Real.sqrt_mul (by positivity) _, Real.sqrt_sq (by norm_num)]
  rw [rQuad_eq, hfour]
  nlinarith [hsqrt]

/-! Lemmas about the sampling grid. -/

lemma alpha_nonneg (r2 : ℝ) : 0 ≤ alpha r2 := Real.arccos_nonneg _

lemma alpha_le_pi (r2 : ℝ) : alpha r2 ≤ Real.pi := Real.arccos_le_pi _

lemma phiSample_zero (r2 : ℝ) : phiSample r2 0 = -Real.pi + alpha r2 := by
  simp [phiSample]

lemma phiSample_last (r2 : ℝ) : phiSample r2 1999 = Real.pi - alpha r2 := by
  unfold phiSample
  push_cast
  ring

lemma phiSample_symm {i : ℕ} (hi : i ≤ 1999) (r2 : ℝ) :
    phiSample r2 (1999 - i) = -phiSample r2 i := by
  unfold phiSample
  rw [Nat.cast_sub hi]
  push_cast
  ring

lemma phiSample_999 (r2 : ℝ) :
    phiSample r2 999 = -((Real.pi - alpha r2) / 1999) := by
  unfold phiSample
  push_cast
  ring

lemma abs_phiSample_999 (r2 : ℝ) :
    |phiSample r2 999| = (Real.pi - alpha r2) / 1999 := by
  rw [phiSample_999, abs_neg, abs_of_nonneg]
  have := alpha_le_pi r2
  linarith [this]

lemma disc_neg (r2 phi : ℝ) : disc r2 (-phi) = disc r2 phi := by
  unfold disc qb
  rw [Real.cos_neg]

lemma rQuad_neg (r2 phi : ℝ) : rQuad r2 (-phi) = rQuad r2 phi := by
  unfold rQuad qb
  rw [disc_neg, Real.cos_neg]

lemma kept_symm {i : ℕ} (hi : i ≤ 1999) (r2 : ℝ) :
    kept r2 (1999 - i) ↔ kept r2 i := by
  unfold kept
  rw [phiSample_symm hi, rQuad_neg]

lemma mem_keptSet {r2 : ℝ} {i : ℕ} :
    i ∈ keptSet r2 ↔ i < 2000 ∧ kept r2 i := by
  simp [keptSet, Finset.mem_filter, Finset.mem_range]

lemma keptSet_card_le (r2 : ℝ) : (keptSet r2).card ≤ 2000 := by
  calc (keptSet r2).card ≤ (Finset.range 2000).card :=
        Finset.card_filter_le _ _
    _ = 2000 := Finset.card_range 2000

/-! Lemmas connecting the root equation to the sampling grid, and the
concrete root instance used by witnesses. -/

lemma pi_sub_alpha_of_root {L r2 : ℝ} (hroot : r_2_func L r2 = 0) :
    Real.pi - alpha r2 = L / (2 * r2) := by
  have harg : 0.5 * (r2 / R_sun_cm) = 0.5 * r2 / R_sun_cm := by ring
  have hdiv : L / 2 / r2 = L / (2 * r2) := by rw [div_div]
  unfold r_2_func at hroot
  unfold alpha
  rw [harg]
  linarith [hroot, hdiv]

lemma kept_999_of_root {L r2 : ℝ} (hL : 1e10 ≤ L)
    (hlo : bracketLo L ≤ r2) (hroot : r_2_func L r2 = 0) : kept r2 999 := by
  have hpi : Real.pi < 3.15 := Real.pi_lt_d2
  have hpi0 : 0 < Real.pi := Real.pi_pos
  have hLpos : 0 < L := lt_of_lt_of_le (by norm_num) hL
  have hr2 : 0 < r2 := by
    have hq : 0 < L / (2 * Real.pi) := by positivity
    exact lt_of_lt_of_le hq hlo
  have hbr : L ≤ 2 * Real.pi * r2 := by
    have := (div_le_iff (by positivity : (0:ℝ) < 2 * Real.pi)).1 hlo
    linarith [this]
  have h63 : L ≤ 6.3 * r2 := by nlinarith
  apply rQuad_gt
  rw [abs_phiSample_999, pi_sub_alpha_of_root hroot]
  have hform : R_sun_cm * (L / (2 * r2) / 1999) = R_sun_cm * L / (3998 * r2) := by
    ring
  rw [hform, div_lt_iff (by positivity : (0:ℝ) < 3998 * r2)]
  have hb : (1e10 : ℝ) ≤ 6.3 * r2 := le_trans hL h63
  rw [R_sun_cm]
  nlinarith [mul_le_mul_of_nonneg_right h63 (le_of_lt hr2),
    mul_le_mul_of_nonneg_right hb (le_of_lt hr2)]

lemma keptSet_nonempty_of_root {L r2 : ℝ} (hL : 1e10 ≤ L)
    (hlo : bracketLo L ≤ r2) (hroot : r_2_func L r2 = 0) :
    (keptSet r2).Nonempty :=
  ⟨999, mem_keptSet.2 ⟨by norm_num, kept_999_of_root hL hlo hroot⟩⟩

lemma sqrt6_gt : (2.44 : ℝ) < Real.sqrt 6 :=
  (Real.lt_sqrt (by norm_num)).2 (by norm_num)

lemma sqrt6_lt : Real.sqrt 6 < (2.46 : ℝ) :=
  (Real.sqrt_lt' (by norm_num)).2 (by norm_num)

lemma sqrt2_gt : (1.41 : ℝ) < Real.sqrt 2 :=
  (Real.lt_sqrt (by norm_num)).2 (by norm_num)

lemma sqrt2_lt : Real.sqrt 2 < (1.42 : ℝ) :=
  (Real.sqrt_lt' (by norm_num)).2 (by norm_num)

lemma cos_5pi12 :
    Real.cos (5 * Real.pi / 12) = (Real.sqrt 6 - Real.sqrt 2) / 4 := by
  have h : (5 : ℝ) * Real.pi / 12 = Real.pi / 4 + Real.pi / 6 := by ring
  rw [h, Real.cos_add, Real.cos_pi_div_four, Real.cos_pi_div_six,
    Real.sin_pi_div_four, Real.sin_pi_div_six]
  have h6 : Real.sqrt 6 = Real.sqrt 2 * Real.sqrt 3 := by
    rw [← Real.sqrt_mul (by norm_num : (0:ℝ) ≤ 2)]
    norm_num
  rw [h6]
  ring

lemma sin_5pi12 :
    Real.sin (5 * Real.pi / 12) = (Real.sqrt 6 + Real.sqrt 2) / 4 := by
  have h : (5 : ℝ) * Real.pi / 12 = Real.pi / 4 + Real.pi / 6 := by ring
  rw [h, Real.sin_add, Real.cos_pi_div_four, Real.cos_pi_div_six,
    Real.sin_pi_div_four, Real.sin_pi_div_six]
  have h6 : Real.sqrt 6 = Real.sqrt 2 * Real.sqrt 3 := by
    rw [← Real.sqrt_mul (by norm_num : (0:ℝ) ≤ 2)]
    norm_num
  rw [h6]
  ring

lemma r2star_pos : 0 < r2star := by
  unfold r2star
  nlinarith [R_sun_pos, sqrt6_gt, sqrt2_lt]

lemma r2star_arg :
    0.5 * (r2star / R_sun_cm) = (Real.sqrt 6 - Real.sqrt 2) / 4 := by
  have hR : R_sun_cm ≠ 0 := ne_of_gt R_sun_pos
  unfold r2star
  field_simp
  ring

lemma alpha_r2star : alpha r2star = 5 * Real.pi / 12 := by
  unfold alpha
  rw [r2star_arg, ← cos_5pi12, Real.arccos_cos (by positivity)
    (by nlinarith [Real.pi_pos])]

lemma root_Lstar : r_2_func Lstar r2star = 0 := by
  unfold r_2_func
  have harg : 0.5 * r2star / R_sun_cm = (Real.sqrt 6 - Real.sqrt 2) / 4 := by
    rw [← r2star_arg]
    ring
  rw [harg, ← cos_5pi12, Real.arccos_cos (by positivity)
    (by nlinarith [Real.pi_pos])]
  have hr2 : r2star ≠ 0 := ne_of_gt r2star_pos
  unfold Lstar
  field_simp
  ring

lemma bracketLo_Lstar : bracketLo Lstar ≤ r2star := by
  unfold bracketLo Lstar
  rw [div_le_iff (by positivity : (0:ℝ) < 2 * Real.pi)]
  nlinarith [Real.pi_pos, r2star_pos]

lemma bracketHi_Lstar : r2star ≤ bracketHi Lstar := by
  unfold bracketHi Lstar
  rw [le_div_iff Real.pi_pos]
  nlinarith [Real.pi_pos, r2star_pos]

lemma Lstar_lo : (1e10 : ℝ) ≤ Lstar := by
  have h1 := sqrt6_gt
  have h2 := sqrt2_lt
  have hpi : (3.14 : ℝ) < Real.pi := Real.pi_gt_d2
  unfold Lstar r2star
  rw [R_sun_cm]
  nlinarith [mul_pos (show (0:ℝ) < Real.sqrt 6 - Real.sqrt 2 by nlinarith)
    (show (0:ℝ) < Real.pi by linarith)]

lemma Lstar_hi : Lstar ≤ (2e11 : ℝ) := by
  have h1 := sqrt6_lt
  have h2 := sqrt2_gt
  have hpi : Real.pi < 3.15 := Real.pi_lt_d2
  have hpi0 : (0:ℝ) < Real.pi := Real.pi_pos
  unfold Lstar r2star
  rw [R_sun_cm]
  nlinarith [mul_pos (show (0:ℝ) < Real.sqrt 6 - Real.sqrt 2 by nlinarith [sqrt6_gt, sqrt2_lt])
    hpi0]

lemma kept_999_r2star : kept r2star 999 := by
  apply rQuad_gt
  rw [abs_phiSample_999, alpha_r2star]
  have hpi : Real.pi < 3.15 := Real.pi_lt_d2
  have hpi0 : (0:ℝ) < Real.pi := Real.pi_pos
  unfold r2star
  rw [R_sun_cm]
  nlinarith [sqrt6_gt, sqrt2_lt]

lemma ptRadius_loopPoint {r2 : ℝ} (i : ℕ)
    (h : 0 ≤ rQuad r2 (phiSample r2 i)) :
    ptRadius (loopPoint r2 i) = rQuad r2 (phiSample r2 i) := by
  have hpyth := Real.sin_sq_add_cos_sq (phiSample r2 i)
  unfold ptRadius loopPoint
  have hkey : (rQuad r2 (phiSample r2 i) * Real.sin (phiSample r2 i)) ^ 2 +
      (0 : ℝ) ^ 2 +
      (rQuad r2 (phiSample r2 i) * Real.cos (phiSample r2 i)) ^ 2 =
      rQuad r2 (phiSample r2 i) ^ 2 := by
    nlinarith [hpyth]
  rw [hkey, Real.sqrt_sq h]

lemma disc_nonneg_of_kept {r2 : ℝ} {i : ℕ} (h : kept r2 i) :
    0 ≤ disc r2 (phiSample r2 i) := by
  by_contra hneg
  push_neg at hneg
  exact absurd (rQuad_le_of_disc_nonpos (le_of_lt hneg)) (not_le.2 h)

lemma rQuad_root_of_disc_nonneg {r2 phi : ℝ} (h : 0 ≤ disc r2 phi) :
    qa * rQuad r2 phi ^ 2 + qb phi * rQuad r2 phi + qc r2 = 0 := by
  have hs : Real.sqrt (disc r2 phi) ^ 2 = disc r2 phi := Real.sq_sqrt h
  have hd : disc r2 phi = qb phi ^ 2 - 4 * qa * qc r2 := rfl
  unfold rQuad
  unfold qa at hd ⊢
  nlinarith [hs, hd]

/-! Lemmas about the bisection root-finder. -/

lemma bisectAux_spec (f : ℝ → ℝ) (n : ℕ) :
    ∀ lo hi : ℝ, lo ≤ hi → f lo * f hi ≤ 0 →
      lo ≤ (bisectAux f n lo hi).1 ∧
      (bisectAux f n lo hi).1 ≤ (bisectAux f n lo hi).2 ∧
      (bisectAux f n lo hi).2 ≤ hi ∧
      f (bisectAux f n lo hi).1 * f (bisectAux f n lo hi).2 ≤ 0 ∧
      (bisectAux f n lo hi).2 - (bisectAux f n lo hi).1 = (hi - lo) / 2 ^ n := by
  induction n with
  | zero =>
    intro lo hi hle hsign
    simp only [bisectAux, pow_zero, div_one]
    exact ⟨le_rfl, hle, le_rfl, hsign, trivial⟩
  | succ n ih =>
    intro lo hi hle hsign
    by_cases hc : f lo * f ((lo + hi) / 2) ≤ 0
    · have hm : lo ≤ (lo + hi) / 2 := by linarith
      obtain ⟨h1, h2, h3, h4, h5⟩ := ih lo ((lo + hi) / 2) hm hc
      simp only [bisectAux, if_pos hc]
      refine ⟨h1, h2, by linarith, h4, ?_⟩
      rw [h5, pow_succ]
      field_simp
      ring
    · push_neg at hc
      have hne : f lo ≠ 0 := by
        intro h0
        rw [h0, zero_mul] at hc
        exact lt_irrefl 0 hc
      have hsq : 0 < f lo ^ 2 := by positivity
      have hsign' : f ((lo + hi) / 2) * f hi ≤ 0 := by
        nlinarith [mul_nonpos_iff.2 (Or.inl ⟨le_of_lt hc, hsign⟩), hsq,
          mul_nonneg (le_of_lt hc) (le_of_lt hc)]
      have hm : (lo + hi) / 2 ≤ hi := by linarith
      obtain ⟨h1, h2, h3, h4, h5⟩ := ih ((lo + hi) / 2) hi hm hsign'
      simp only [bisectAux, if_neg (not_le.2 hc)]
      refine ⟨by linarith, h2, h3, h4, ?_⟩
      rw [h5, pow_succ]
      field_simp
      ring

lemma bracketLo_le_bracketHi {L : ℝ} (hL : 0 < L) :
    bracketLo L ≤ bracketHi L := by
  unfold bracketLo bracketHi
  rw [div_le_div_iff (by positivity) Real.pi_pos]
  nlinarith [Real.pi_pos]

lemma bracketLo_pos {L : ℝ} (hL : 0 < L) : 0 < bracketLo L := by
  unfold bracketLo
  positivity

lemma r_2_func_lo_nonneg {L : ℝ} (hL : 0 < L) :
    0 ≤ r_2_func L (bracketLo L) := by
  unfold r_2_func bracketLo
  have hL' : L ≠ 0 := ne_of_gt hL
  have hpi' : Real.pi ≠ 0 := ne_of_gt Real.pi_pos
  have h : L / 2 / (L / (2 * Real.pi)) = Real.pi := by
    field_simp
    ring
  rw [h]
  have := Real.arccos_nonneg (0.5 * (L / (2 * Real.pi)) / R_sun_cm)
  linarith

lemma r_2_func_hi_nonpos {L : ℝ} (hL : 0 < L) :
    r_2_func L (bracketHi L) ≤ 0 := by
  unfold r_2_func bracketHi
  have hL' : L ≠ 0 := ne_of_gt hL
  have hpi' : Real.pi ≠ 0 := ne_of_gt Real.pi_pos
  have h : L / 2 / (L / Real.pi) = Real.pi / 2 := by
    field_simp
    ring
  rw [h]
  have harg : 0 ≤ 0.5 * (L / Real.pi) / R_sun_cm := by
    apply div_nonneg _ (le_of_lt R_sun_pos)
    positivity
  have harc := Real.arccos_le_pi_div_two.2 harg
  linarith

lemma r_2_func_sign {L : ℝ} (hL : 0 < L) :
    r_2_func L (bracketLo L) * r_2_func L (bracketHi L) ≤ 0 :=
  mul_nonpos_iff.2 (Or.inl ⟨r_2_func_lo_nonneg hL, r_2_func_hi_nonpos hL⟩)

lemma r_2_func_contOn (L : ℝ) {lo hi : ℝ} (hlo : 0 < lo) :
    ContinuousOn (r_2_func L) (Set.Icc lo hi) := by
  have h1 : Continuous fun x : ℝ =>
      Real.arccos (0.5 * x / R_sun_cm) - Real.pi :=
    (Real.continuous_arccos.comp (by continuity)).sub continuous_const
  have h2 : ContinuousOn (fun x : ℝ => L / 2 / x) (Set.Icc lo hi) := by
    apply ContinuousOn.div continuousOn_const continuousOn_id
    intro x hx
    exact ne_of_gt (lt_of_lt_of_le hlo hx.1)
  have hfun : r_2_func L = fun x : ℝ =>
      (Real.arccos (0.5 * x / R_sun_cm) - Real.pi) + L / 2 / x := rfl
  rw [hfun]
  exact h1.continuousOn.add h2

lemma exists_root_Icc {f : ℝ → ℝ} {a b : ℝ} (hab : a ≤ b)
    (hcont : ContinuousOn f (Set.Icc a b)) (hsign : f a * f b ≤ 0) :
    ∃ ρ ∈ Set.Icc a b, f ρ = 0 := by
  rcases mul_nonpos_iff.1 hsign with ⟨ha, hb⟩ | ⟨ha, hb⟩
  · obtain ⟨ρ, hρ, hfρ⟩ := intermediate_value_Icc' hab hcont ⟨hb, ha⟩
    exact ⟨ρ, hρ, hfρ⟩
  · obtain ⟨ρ, hρ, hfρ⟩ := intermediate_value_Icc hab hcont ⟨ha, hb⟩
    exact ⟨ρ, hρ, hfρ⟩

lemma bisect_approx {L : ℝ} (hL : 0 < L) (n : ℕ) :
    (bracketLo L ≤ bisect (r_2_func L) (bracketLo L) (bracketHi L) n ∧
      bisect (r_2_func L) (bracketLo L) (bracketHi L) n ≤ bracketHi L) ∧
    ∃ ρ, (bracketLo L ≤ ρ ∧ ρ ≤ bracketHi L) ∧ r_2_func L ρ = 0 ∧
      |bisect (r_2_func L) (bracketLo L) (bracketHi L) n - ρ| ≤
        (bracketHi L - bracketLo L) / 2 ^ n := by
  have hle := bracketLo_le_bracketHi hL
  have hsign := r_2_func_sign hL
  obtain ⟨h1, h2, h3, h4, h5⟩ :=
    bisectAux_spec (r_2_func L) n (bracketLo L) (bracketHi L) hle hsign
  have hmid : bisect (r_2_func L) (bracketLo L) (bracketHi L) n =
      ((bisectAux (r_2_func L) n (bracketLo L) (bracketHi L)).1 +
        (bisectAux (r_2_func L) n (bracketLo L) (bracketHi L)).2) / 2 := rfl
  have hcont : ContinuousOn (r_2_func L)
      (Set.Icc (bisectAux (r_2_func L) n (bracketLo L) (bracketHi L)).1
        (bisectAux (r_2_func L) n (bracketLo L) (bracketHi L)).2) :=
    r_2_func_contOn L (lt_of_lt_of_le (bracketLo_pos hL) h1)
  obtain ⟨ρ, hρ, hfρ⟩ := exists_root_Icc h2 hcont h4
  constructor
  · constructor
    · rw [hmid]; linarith [h1, h2]
    · rw [hmid]; linarith [h2, h3]
  · refine ⟨ρ, ⟨le_trans h1 hρ.1, le_trans hρ.2 h3⟩, hfρ, ?_⟩
    rw [hmid, abs_le]
    constructor
    · have hw : (bracketHi L - bracketLo L) / 2 ^ n ≥ 0 := by
        have : (0:ℝ) < 2 ^ n := by positivity
        apply div_nonneg (by linarith) (le_of_lt this)
      nlinarith [hρ.1, hρ.2, h5, h2]
    · nlinarith [hρ.1, hρ.2, h5, h2]

/-! Helpers for the degenerate and symmetric cases. -/

lemma rQuad_zero_le (phi : ℝ) : rQuad 0 phi ≤ R_sun_cm := by
  apply rQuad_le_of_disc_nonpos
  rw [disc_eq]
  nlinarith [sq_nonneg (R_sun_cm * Real.sin phi)]

lemma alpha_two_R : alpha (2 * R_sun_cm) = 0 := by
  have hR : R_sun_cm ≠ 0 := ne_of_gt R_sun_pos
  unfold alpha
  have h1 : 0.5 * (2 * R_sun_cm / R_sun_cm) = 1 := by
    field_simp
    norm_num
  rw [h1, Real.arccos_one]

lemma kept_999_twoR : kept (2 * R_sun_cm) 999 := by
  apply rQuad_gt
  rw [abs_phiSample_999, alpha_two_R]
  have hpi : Real.pi < 3.15 := Real.pi_lt_d2
  nlinarith [R_sun_pos, Real.pi_pos]

lemma keptSet_max'_eq {r2 : ℝ} (hne : (keptSet r2).Nonempty) :
    (keptSet r2).max' hne = 1999 - (keptSet r2).min' hne := by
  obtain ⟨hlt, hk⟩ := mem_keptSet.1 (Finset.min'_mem _ hne)
  have hle : (keptSet r2).min' hne ≤ 1999 := by omega
  have hsymmem : (1999 - (keptSet r2).min' hne) ∈ keptSet r2 :=
    mem_keptSet.2 ⟨by omega, (kept_symm hle r2).2 hk⟩
  apply le_antisymm
  · apply Finset.max'_le
    intro y hy
    obtain ⟨hy2000, hky⟩ := mem_keptSet.1 hy
    have hy1999 : y ≤ 1999 := by omega
    have hmem : (1999 - y) ∈ keptSet r2 :=
      mem_keptSet.2 ⟨by omega, (kept_symm hy1999 r2).2 hky⟩
    have := Finset.min'_le _ _ hmem
    omega
  · exact Finset.le_max' _ _ hsymmem

lemma loopPoint_symm {i : ℕ} (hi : i ≤ 1999) (r2 : ℝ) :
    (loopPoint r2 (1999 - i)).x = -(loopPoint r2 i).x ∧
    (loopPoint r2 (1999 - i)).z = (loopPoint r2 i).z := by
  simp only [loopPoint]
  rw [phiSample_symm hi, rQuad_neg, Real.sin_neg, Real.cos_neg]
  exact ⟨by ring, rfl⟩

lemma keptList_length_pos {r2 : ℝ} (hne : (keptSet r2).Nonempty) :
    0 < (keptList r2).length := by
  unfold keptList
  rw [Finset.length_sort]
  exact Finset.card_pos.2 hne

lemma keptList_ne_nil {r2 : ℝ} (hne : (keptSet r2).Nonempty) :
    keptList r2 ≠ [] :=
  List.ne_nil_of_length_pos (keptList_length_pos hne)

lemma keptList_head_eq_min' {r2 : ℝ} (hne : (keptSet r2).Nonempty)
    (hnil : keptList r2 ≠ []) :
    (keptList r2).head hnil = (keptSet r2).min' hne := by
  rw [List.head_eq_getElem_zero hnil]
  exact Finset.sorted_zero_eq_min'

lemma keptList_getLast_eq_max' {r2 : ℝ} (hne : (keptSet r2).Nonempty)
    (hnil : keptList r2 ≠ []) :
    (keptList r2).getLast hnil = (keptSet r2).max' hne := by
  rw [List.getLast_eq_getElem]
  exact Finset.sorted_last_eq_max'

/-! Claim theorems. -/

/-- C1: for every `length` in the physical range 100 Mm to 2000 Mm (in cm,
`1e10` to `2e11`) and `latitudeOffset` in `[-80, 80]` degrees, the point
sequence produced by `semi_circular_loop` with the root `r2` of the
bracketed equation is non-empty, and every point's distance from the body
centre is at least the surface radius `r_1`. -/
theorem C1_nonempty_above_surface (L theta0 r2 : ℝ)
    (hL1 : 1e10 ≤ L) (hL2 : L ≤ 2e11)
    (hth1 : -80 ≤ theta0) (hth2 : theta0 ≤ 80)
    (hlo : bracketLo L ≤ r2) (hhi : r2 ≤ bracketHi L)
    (hroot : r_2_func L r2 = 0) :
    (transform_to_hgs (hcc_frame theta0) (loopPointSet r2)).points ≠ [] ∧
    ∀ p ∈ (transform_to_hgs (hcc_frame theta0) (loopPointSet r2)).points,
      R_sun_cm ≤ ptRadius p := by
  have hne := keptSet_nonempty_of_root hL1 hlo hroot
  constructor
  · show loopPointSet r2 ≠ []
    have hpos : 0 < (loopPointSet r2).length := by
      unfold loopPointSet
      rw [List.length_map]
      exact keptList_length_pos hne
    exact List.ne_nil_of_length_pos hpos
  · intro p hp
    obtain ⟨i, hi, hpi⟩ := List.mem_map.1 hp
    have hik : kept r2 i := (mem_keptSet.1 ((Finset.mem_sort _).1 hi)).2
    have hr : R_sun_cm < rQuad r2 (phiSample r2 i) := hik
    rw [← hpi, ptRadius_loopPoint i (le_of_lt (lt_trans R_sun_pos hr))]
    exact le_of_lt hr

/-- witness for C1 at the concrete instance `length = Lstar` (about
1320 Mm), `latitudeOffset = 30` degrees, `r2 = r2star` (an exact root of
the bracketed equation inside the bracket). -/
theorem C1_nonempty_above_surface_witness :
    ((1e10 : ℝ) ≤ Lstar ∧ Lstar ≤ 2e11 ∧ ((-80 : ℝ) ≤ 30 ∧ (30 : ℝ) ≤ 80) ∧
      bracketLo Lstar ≤ r2star ∧ r2star ≤ bracketHi Lstar ∧
      r_2_func Lstar r2star = 0) ∧
    ((transform_to_hgs (hcc_frame 30) (loopPointSet r2star)).points ≠ [] ∧
      ∀ p ∈ (transform_to_hgs (hcc_frame 30) (loopPointSet r2star)).points,
        R_sun_cm ≤ ptRadius p) :=
  ⟨⟨Lstar_lo, Lstar_hi, ⟨by norm_num, by norm_num⟩, bracketLo_Lstar,
      bracketHi_Lstar, root_Lstar⟩,
    C1_nonempty_above_surface Lstar 30 r2star Lstar_lo Lstar_hi
      (by norm_num) (by norm_num) bracketLo_Lstar bracketHi_Lstar root_Lstar⟩

/-- C2: `r_2` is found by bisection of `r_2_func length` on the bracket
`[length/(2*pi), length/pi]`; the returned value lies in the bracket, and
there is an exact root `rho` of the equation in the bracket within the
root-finder's tolerance `(bracket width)/2^n` of the returned value. -/
theorem C2_bisect_in_bracket_near_root (L : ℝ) (n : ℕ) (hL : 0 < L) :
    (bracketLo L ≤ bisect (r_2_func L) (bracketLo L) (bracketHi L) n ∧
      bisect (r_2_func L) (bracketLo L) (bracketHi L) n ≤ bracketHi L) ∧
    ∃ ρ, (bracketLo L ≤ ρ ∧ ρ ≤ bracketHi L) ∧ r_2_func L ρ = 0 ∧
      |bisect (r_2_func L) (bracketLo L) (bracketHi L) n - ρ| ≤
        (bracketHi L - bracketLo L) / 2 ^ n :=
  bisect_approx hL n

/-- witness for C2 at `length = 1e10` cm and `n = 100` halving steps. -/
theorem C2_bisect_in_bracket_near_root_witness :
    (0 : ℝ) < 1e10 ∧
    ((bracketLo 1e10 ≤ bisect (r_2_func 1e10) (bracketLo 1e10) (bracketHi 1e10) 100 ∧
        bisect (r_2_func 1e10) (bracketLo 1e10) (bracketHi 1e10) 100 ≤ bracketHi 1e10) ∧
      ∃ ρ, (bracketLo 1e10 ≤ ρ ∧ ρ ≤ bracketHi 1e10) ∧ r_2_func 1e10 ρ = 0 ∧
        |bisect (r_2_func 1e10) (bracketLo 1e10) (bracketHi 1e10) 100 - ρ| ≤
          (bracketHi 1e10 - bracketLo 1e10) / 2 ^ 100) :=
  ⟨by norm_num, C2_bisect_in_bracket_near_root 1e10 100 (by norm_num)⟩

/-- C3: for each sampled angle, the radial distance is computed as
`(-b + sqrt(b^2 - 4*a*c)) / (2*a)` with `a = 1`,
`b = -2*r_1*cos(phi)`, `c = r_1^2 - r_2^2`; whenever the discriminant is
non-negative this value is a root of the quadratic
`r^2 - 2*r_1*cos(phi)*r + (r_1^2 - r_2^2) = 0`, and it is the larger of
the two roots. -/
theorem C3_positive_quadratic_root (r2 phi : ℝ) (h : 0 ≤ disc r2 phi) :
    rQuad r2 phi =
      (-(-2 * (R_sun_cm * Real.cos phi)) +
        Real.sqrt ((-2 * (R_sun_cm * Real.cos phi)) ^ 2 -
          4 * 1 * (R_sun_cm ^ 2 - r2 ^ 2))) / 2 / 1 ∧
    rQuad r2 phi ^ 2 - 2 * R_sun_cm * Real.cos phi * rQuad r2 phi +
      (R_sun_cm ^ 2 - r2 ^ 2) = 0 ∧
    (-(-2 * (R_sun_cm * Real.cos phi)) -
        Real.sqrt ((-2 * (R_sun_cm * Real.cos phi)) ^ 2 -
          4 * 1 * (R_sun_cm ^ 2 - r2 ^ 2))) / 2 / 1 ≤ rQuad r2 phi := by
  have hform : rQuad r2 phi =
      (-(-2 * (R_sun_cm * Real.cos phi)) +
        Real.sqrt ((-2 * (R_sun_cm * Real.cos phi)) ^ 2 -
          4 * 1 * (R_sun_cm ^ 2 - r2 ^ 2))) / 2 / 1 := rfl
  have hq := rQuad_root_of_disc_nonneg h
  have hd : disc r2 phi = (-2 * (R_sun_cm * Real.cos phi)) ^ 2 -
      4 * 1 * (R_sun_cm ^ 2 - r2 ^ 2) := rfl
  refine ⟨hform, ?_, ?_⟩
  · unfold qa qb qc at hq
    nlinarith [hq]
  · rw [hform, ← hd]
    have := Real.sqrt_nonneg (disc r2 phi)
    linarith

/-- witness for C3 at `r2 = 2*r_1`, `phi = phiSample (2*r_1) 999`, where
the discriminant is non-negative because the sample is retained. -/
theorem C3_positive_quadratic_root_witness :
    0 ≤ disc (2 * R_sun_cm) (phiSample (2 * R_sun_cm) 999) ∧
    rQuad (2 * R_sun_cm) (phiSample (2 * R_sun_cm) 999) ^ 2 -
      2 * R_sun_cm * Real.cos (phiSample (2 * R_sun_cm) 999) *
        rQuad (2 * R_sun_cm) (phiSample (2 * R_sun_cm) 999) +
      (R_sun_cm ^ 2 - (2 * R_sun_cm) ^ 2) = 0 := by
  have h : 0 ≤ disc (2 * R_sun_cm) (phiSample (2 * R_sun_cm) 999) :=
    disc_nonneg_of_kept kept_999_twoR
  exact ⟨h, (C3_positive_quadratic_root (2 * R_sun_cm)
    (phiSample (2 * R_sun_cm) 999) h).2.1⟩

/-- C4: the exclusion half-angle is `alpha = arccos(0.5*r2/r1)`, the 2000
angles are linearly spaced over the closed interval
`[-pi + alpha, pi - alpha]` (first sample `-pi + alpha`, last sample
`pi - alpha`), and the returned point sequence has at most 2000 points:
exactly 2000 minus the number of sub-surface samples removed by the
filter. -/
theorem C4_sampling_grid (r2 : ℝ) :
    alpha r2 = Real.arccos (0.5 * (r2 / R_sun_cm)) ∧
    phiSample r2 0 = -Real.pi + alpha r2 ∧
    phiSample r2 1999 = Real.pi - alpha r2 ∧
    (∀ i : ℕ, phiSample r2 i = (-Real.pi + alpha r2) +
      (i : ℝ) * ((Real.pi - alpha r2) - (-Real.pi + alpha r2)) / 1999) ∧
    (keptSet r2).card +
      ((Finset.range 2000).filter (fun i => ¬ kept r2 i)).card = 2000 ∧
    (loopPointSet r2).length = (keptSet r2).card ∧
    (loopPointSet r2).length ≤ 2000 := by
  have hlen : (loopPointSet r2).length = (keptSet r2).card := by
    unfold loopPointSet keptList
    rw [List.length_map, Finset.length_sort]
  refine ⟨rfl, phiSample_zero r2, phiSample_last r2, fun i => rfl, ?_, hlen, ?_⟩
  · rw [keptSet, Finset.filter_card_add_filter_neg_card_eq_card,
      Finset.card_range]
  · rw [hlen]
    exact keptSet_card_le r2

/-- C5: each retained sample `(r, phi)` becomes the Cartesian point
`(r*sin(phi), 0, r*cos(phi))` — in particular the `y`-component of every
generated point is exactly zero — in the Heliocentric frame whose observer
sits at longitude `0`, latitude `theta0`, radius `r_1`; the point set is
then transformed to the heliographic Stonyhurst frame before being
returned. -/
theorem C5_cartesian_points_and_frames (r2 theta0 L : ℝ) :
    (∀ i : ℕ, (loopPoint r2 i).y = 0 ∧
      (loopPoint r2 i).x =
        rQuad r2 (phiSample r2 i) * Real.sin (phiSample r2 i) ∧
      (loopPoint r2 i).z =
        rQuad r2 (phiSample r2 i) * Real.cos (phiSample r2 i)) ∧
    hcc_frame theta0 =
      { observer_lon := 0, observer_lat := theta0,
        observer_radius := R_sun_cm } ∧
    transform_to_hgs (hcc_frame theta0) (loopPointSet r2) =
      { frameName := "heliographic_stonyhurst",
        sourceFrame := hcc_frame theta0, points := loopPointSet r2 } ∧
    (transform_to_hgs (hcc_frame theta0) (loopPointSet r2)).points =
      loopPointSet r2 ∧
    semi_circular_loop L theta0 =
      (bisectChecked (r_2_func L) (bracketLo L) (bracketHi L) 100).map
        (fun x => transform_to_hgs (hcc_frame theta0) (loopPointSet x)) :=
  ⟨fun _ => ⟨rfl, rfl, rfl⟩, rfl, rfl, rfl, rfl⟩

/-- C6: whenever the returned sequence is non-empty, its first and last
points are mirror images about the loop apex: their sampled angles are
negatives of each other, their `x`-coordinates are opposite and their
`z`-coordinates are equal. -/
theorem C6_first_last_symmetric (r2 : ℝ) (hne : (keptSet r2).Nonempty) :
    ∃ hnil : loopPointSet r2 ≠ [],
      phiSample r2 ((keptList r2).getLast (keptList_ne_nil hne)) =
        -phiSample r2 ((keptList r2).head (keptList_ne_nil hne)) ∧
      ((loopPointSet r2).getLast hnil).x =
        -((loopPointSet r2).head hnil).x ∧
      ((loopPointSet r2).getLast hnil).z =
        ((loopPointSet r2).head hnil).z := by
  have hnil := keptList_ne_nil hne
  have hnil' : loopPointSet r2 ≠ [] := by
    unfold loopPointSet
    simp only [ne_eq, List.map_eq_nil_iff]
    exact hnil
  have hhead := keptList_head_eq_min' hne hnil
  have hlast := keptList_getLast_eq_max' hne hnil
  obtain ⟨hmin_lt, _⟩ := mem_keptSet.1 (Finset.min'_mem _ hne)
  have hmin_le : (keptSet r2).min' hne ≤ 1999 := by omega
  have hmax := keptSet_max'_eq hne
  have hPhead : (loopPointSet r2).head hnil' =
      loopPoint r2 ((keptList r2).head hnil) := by
    unfold loopPointSet
    rw [List.head_map]
  have hPlast : (loopPointSet r2).getLast hnil' =
      loopPoint r2 ((keptList r2).getLast hnil) := by
    unfold loopPointSet
    rw [List.getLast_map]
  refine ⟨hnil', ?_, ?_, ?_⟩
  · rw [hlast, hhead, hmax, phiSample_symm hmin_le]
  · rw [hPlast, hPhead, hlast, hhead, hmax]
    exact (loopPoint_symm hmin_le r2).1
  · rw [hPlast, hPhead, hlast, hhead, hmax]
    exact (loopPoint_symm hmin_le r2).2

/-- witness for C6 at `r2 = 2*r_1`, where sample 999 is retained. -/
theorem C6_first_last_symmetric_witness :
    (keptSet (2 * R_sun_cm)).Nonempty ∧
    ∃ hnil : loopPointSet (2 * R_sun_cm) ≠ [],
      phiSample (2 * R_sun_cm)
          ((keptList (2 * R_sun_cm)).getLast
            (keptList_ne_nil ⟨999, mem_keptSet.2 ⟨by norm_num, kept_999_twoR⟩⟩)) =
        -phiSample (2 * R_sun_cm)
          ((keptList (2 * R_sun_cm)).head
            (keptList_ne_nil ⟨999, mem_keptSet.2 ⟨by norm_num, kept_999_twoR⟩⟩)) ∧
      ((loopPointSet (2 * R_sun_cm)).getLast hnil).x =
        -((loopPointSet (2 * R_sun_cm)).head hnil).x ∧
      ((loopPointSet (2 * R_sun_cm)).getLast hnil).z =
        ((loopPointSet (2 * R_sun_cm)).head hnil).z :=
  ⟨⟨999, mem_keptSet.2 ⟨by norm_num, kept_999_twoR⟩⟩,
    C6_first_last_symmetric (2 * R_sun_cm)
      ⟨999, mem_keptSet.2 ⟨by norm_num, kept_999_twoR⟩⟩⟩

/-- C7: writing the tree to the asdf file and reading it back yields the
same tree: the coordinates have the same number of points and the same
first and last points as the original. -/
theorem C7_asdf_roundtrip (t : Tree) :
    asdf_open (write_to t) = t ∧
    (asdf_open (write_to t)).loop_points.points.length =
      t.loop_points.points.length ∧
    (asdf_open (write_to t)).loop_points.points.head? =
      t.loop_points.points.head? ∧
    (asdf_open (write_to t)).loop_points.points.getLast? =
      t.loop_points.points.getLast? :=
  ⟨rfl, rfl, rfl, rfl⟩

/-- C8: if every sampled point falls below the reference surface, the
returned point sequence is empty; the (total) function still returns a
transformed coordinate object, so no error is raised and nothing detects
the empty result. -/
theorem C8_all_filtered_returns_empty (r2 theta0 : ℝ)
    (h : ∀ i : ℕ, i < 2000 → ¬ kept r2 i) :
    loopPointSet r2 = [] ∧
    transform_to_hgs (hcc_frame theta0) (loopPointSet r2) =
      { frameName := "heliographic_stonyhurst",
        sourceFrame := hcc_frame theta0, points := [] } := by
  have hempty : keptSet r2 = ∅ := by
    rw [Finset.eq_empty_iff_forall_not_mem]
    intro i hi
    obtain ⟨hi2000, hk⟩ := mem_keptSet.1 hi
    exact h i hi2000 hk
  have hlist : loopPointSet r2 = [] := by
    unfold loopPointSet keptList
    rw [hempty, Finset.sort_empty]
    rfl
  refine ⟨hlist, ?_⟩
  rw [hlist]
  rfl

/-- witness for C8 at the degenerate circle radius `r2 = 0`, where every
sample's radial distance is at most `r_1`. -/
theorem C8_all_filtered_returns_empty_witness :
    (∀ i : ℕ, i < 2000 → ¬ kept 0 i) ∧
    loopPointSet 0 = [] ∧
    transform_to_hgs (hcc_frame 30) (loopPointSet 0) =
      { frameName := "heliographic_stonyhurst",
        sourceFrame := hcc_frame 30, points := [] } := by
  have h : ∀ i : ℕ, i < 2000 → ¬ kept 0 i := fun i _ =>
    not_lt.2 (rQuad_zero_le (phiSample 0 i))
  exact ⟨h, C8_all_filtered_returns_empty 0 30 h⟩

/-- C9: if the bracket carries no sign change the root-finder model raises
(returns `none`) instead of returning a value; and for every positive
`length` the generator's root search either raises or returns a value that
lies in the bracket within tolerance of an exact root — it never returns
silently wrong geometry. -/
theorem C9_bracket_failure_raises :
    (∀ (f : ℝ → ℝ) (lo hi : ℝ) (n : ℕ), 0 < f lo * f hi →
      bisectChecked f lo hi n = none) ∧
    ∀ (L : ℝ) (n : ℕ), 0 < L →
      bisectChecked (r_2_func L) (bracketLo L) (bracketHi L) n = none ∨
      ∃ r, bisectChecked (r_2_func L) (bracketLo L) (bracketHi L) n = some r ∧
        (bracketLo L ≤ r ∧ r ≤ bracketHi L) ∧
        ∃ ρ, (bracketLo L ≤ ρ ∧ ρ ≤ bracketHi L) ∧ r_2_func L ρ = 0 ∧
          |r - ρ| ≤ (bracketHi L - bracketLo L) / 2 ^ n := by
  constructor
  · intro f lo hi n h
    unfold bisectChecked
    rw [if_pos h]
  · intro L n hL
    right
    refine ⟨bisect (r_2_func L) (bracketLo L) (bracketHi L) n, ?_,
      (bisect_approx hL n).1, (bisect_approx hL n).2⟩
    unfold bisectChecked
    rw [if_neg (not_lt.2 (r_2_func_sign hL))]

/-- witness for C9: a bracket with no sign change (a constant positive
function) makes the model raise, and the concrete length `1e10` cm with
`n = 100` steps exercises the second part. -/
theorem C9_bracket_failure_raises_witness :
    ((0 : ℝ) < (fun _ : ℝ => (1 : ℝ)) 0 * (fun _ : ℝ => (1 : ℝ)) 1 ∧
      bisectChecked (fun _ : ℝ => (1 : ℝ)) 0 1 5 = none) ∧
    ((0 : ℝ) < 1e10 ∧
      (bisectChecked (r_2_func 1e10) (bracketLo 1e10) (bracketHi 1e10) 100 =
          none ∨
        ∃ r, bisectChecked (r_2_func 1e10) (bracketLo 1e10)
            (bracketHi 1e10) 100 = some r ∧
          (bracketLo 1e10 ≤ r ∧ r ≤ bracketHi 1e10) ∧
          ∃ ρ, (bracketLo 1e10 ≤ ρ ∧ ρ ≤ bracketHi 1e10) ∧
            r_2_func 1e10 ρ = 0 ∧
            |r - ρ| ≤ (bracketHi 1e10 - bracketLo 1e10) / 2 ^ 100)) :=
  ⟨⟨by norm_num, C9_bracket_failure_raises.1 (fun _ : ℝ => (1 : ℝ)) 0 1 5
      (by norm_num)⟩,
    ⟨by norm_num, C9_bracket_failure_raises.2 1e10 100 (by norm_num)⟩⟩

/-- C10: the discriminant `b^2 - 4*a*c` can be negative at a sampled angle
(witnessed at `r2 = r2star`, sample 1999, where the square root is
undefined over the reals and numpy produces NaN), but every such sample is
excluded by the strict filter `r > r_1`; consequently every retained
sample has a non-negative discriminant and a well-defined radial distance
strictly greater than `r_1`. -/
theorem C10_negative_disc_always_filtered :
    (∀ (r2 : ℝ) (i : ℕ), kept r2 i →
      0 ≤ disc r2 (phiSample r2 i) ∧
        R_sun_cm < rQuad r2 (phiSample r2 i)) ∧
    disc r2star (phiSample r2star 1999) < 0 ∧
    ¬ kept r2star 1999 := by
  have hdisc : disc r2star (phiSample r2star 1999) < 0 := by
    rw [phiSample_last, alpha_r2star, disc_eq]
    have hs : Real.sin (Real.pi - 5 * Real.pi / 12) =
        Real.sin (5 * Real.pi / 12) := Real.sin_pi_sub _
    rw [hs, sin_5pi12]
    have hsq6 : Real.sqrt 6 ^ 2 = 6 := Real.sq_sqrt (by norm_num)
    have hsq2 : Real.sqrt 2 ^ 2 = 2 := Real.sq_sqrt (by norm_num)
    have hab : (3.4 : ℝ) < Real.sqrt 6 * Real.sqrt 2 := by
      nlinarith [sqrt6_gt, sqrt2_gt]
    have hR2 : (0 : ℝ) < R_sun_cm ^ 2 := pow_pos R_sun_pos 2
    unfold r2star
    nlinarith [hab, hR2, hsq6, hsq2]
  exact ⟨fun r2 i h => ⟨disc_nonneg_of_kept h, h⟩, hdisc,
    not_lt.2 (rQuad_le_of_disc_nonpos (le_of_lt hdisc))⟩

/-- witness for C10 at `r2 = 2*r_1`, sample 999, which is retained. -/
theorem C10_negative_disc_always_filtered_witness :
    kept (2 * R_sun_cm) 999 ∧
    (0 ≤ disc (2 * R_sun_cm) (phiSample (2 * R_sun_cm) 999) ∧
      R_sun_cm < rQuad (2 * R_sun_cm) (phiSample (2 * R_sun_cm) 999)) :=
  ⟨kept_999_twoR,
    C10_negative_disc_always_filtered.1 (2 * R_sun_cm) 999 kept_999_twoR⟩

end

end CoordsInAsdf
